import Mathlib

/-
Verification of the Arbiter dependency-resolution engine against its
specification.  The public surface is declared in
`src/include/arbiter/Requirement.h` and `src/include/arbiter/Resolver.h`;
the evaluation and resolution semantics are modelled from the
specification (sections 3, 4.1, 4.2, 7 and 8), since only the public
declarations of those components appear in the source tree.
`src/src/Hash.h` is embedded directly from its source.
-/

/-- Shallow embedding of `struct ArbiterSemanticVersion`: a semantic version
with major/minor/patch numbers, an optional prerelease identifier and optional
build metadata (spec section 3, "Version").  Equality is structural. -/
structure ArbiterSemanticVersion where
  major : Nat
  minor : Nat
  patch : Nat
  prerelease : Option String
  buildMetadata : Option String
deriving DecidableEq

/-- Embedding of `ArbiterRequirementStrictness`
(`src/include/arbiter/Requirement.h` lines 23-39). -/
inductive ArbiterRequirementStrictness where
  | strict
  | allowVersionZeroPatches
deriving DecidableEq

/-- Embedding of `ArbiterRequirementSuitability`
(`src/include/arbiter/Requirement.h` lines 44-68): a three-valued verdict. -/
inductive ArbiterRequirementSuitability where
  | unsuitable
  | suitable
  | bestPossibleChoice
deriving DecidableEq

/-- Numeric rank realising the ordering
Unsuitable < Suitable < BestPossibleChoice (spec section 3, Compound). -/
def suitabilityRank : ArbiterRequirementSuitability → Nat
  | .unsuitable => 0
  | .suitable => 1
  | .bestPossibleChoice => 2

/-- Maximum of two suitabilities under the rank ordering. -/
def maxSuitability (a b : ArbiterRequirementSuitability) :
    ArbiterRequirementSuitability :=
  if suitabilityRank a ≤ suitabilityRank b then b else a

/-- Modelled from the spec (section 3, Compound): combining two sub-results of
a compound requirement — Unsuitable if either is Unsuitable, otherwise the
maximum under the suitability ordering. -/
def combineSuitability (a b : ArbiterRequirementSuitability) :
    ArbiterRequirementSuitability :=
  if a = .unsuitable ∨ b = .unsuitable then .unsuitable
  else maxSuitability a b

/-- Maximum suitability of a list of sub-results; the empty conjunction is
satisfied, so the base is Suitable. -/
def listMaxSuitability : List ArbiterRequirementSuitability →
    ArbiterRequirementSuitability
  | [] => .suitable
  | a :: rest => maxSuitability a (listMaxSuitability rest)

/-- Modelled from the spec (section 3, "Version", ordering by semantic-version
precedence): total order on versions — major, minor, patch lexicographically;
at equal numbers a prerelease sorts below the corresponding release and two
prerelease identifiers compare as strings; build metadata is excluded from
ordering.  The spec treats the version as an opaque totally ordered value. -/
def semanticVersionLe (a b : ArbiterSemanticVersion) : Bool :=
  if a.major ≠ b.major then decide (a.major < b.major)
  else if a.minor ≠ b.minor then decide (a.minor < b.minor)
  else if a.patch ≠ b.patch then decide (a.patch < b.patch)
  else
    match a.prerelease, b.prerelease with
    | none, none => true
    | none, some _ => false
    | some _, none => true
    | some p, some q => decide (p < q) || decide (p = q)

/-- Modelled from the spec (section 4.1): "the compared version is itself in
the same prerelease line as the required version" — the required version
carries a prerelease identifier and the candidate has the same major, minor
and patch numbers. -/
def inSamePrereleaseLine (required candidate : ArbiterSemanticVersion) : Bool :=
  required.prerelease.isSome
    && candidate.major == required.major
    && candidate.minor == required.minor
    && candidate.patch == required.patch

/-- Modelled from the spec (sections 3 and 4.1): evaluation of an `AtLeast`
requirement (`ArbiterCreateRequirementAtLeast`, Requirement.h lines 83-89) —
a prerelease candidate outside the required version's prerelease line is never
matched; otherwise any candidate not below the required version is Suitable. -/
def atLeastSatisfiedBy (required candidate : ArbiterSemanticVersion) :
    ArbiterRequirementSuitability :=
  if candidate.prerelease.isSome ∧ ¬ inSamePrereleaseLine required candidate then
    .unsuitable
  else if semanticVersionLe required candidate then .suitable
  else .unsuitable

/-- Modelled from the spec (section 4.1, "`CompatibleWith` suitability check,
precisely"): evaluation of a `CompatibleWith` requirement
(`ArbiterCreateRequirementCompatibleWith`, Requirement.h lines 91-101).
A prerelease candidate outside the required version's prerelease line is never
matched; Unsuitable if the majors differ; below 1.0.0 the minor must match and
the patch be at least the required patch (section 4.1 states this as the single
current rule for both strictness modes, with section 9 noting the modes are
not yet distinguished); at major ≥ 1 Suitable iff the minor is greater, or the
minor matches and the patch is at least the required patch. -/
def compatibleWithSatisfiedBy (required : ArbiterSemanticVersion)
    (_strictness : ArbiterRequirementStrictness)
    (candidate : ArbiterSemanticVersion) : ArbiterRequirementSuitability :=
  if candidate.prerelease.isSome ∧ ¬ inSamePrereleaseLine required candidate then
    .unsuitable
  else if candidate.major ≠ required.major then .unsuitable
  else if required.major = 0 then
    if candidate.minor = required.minor ∧ candidate.patch ≥ required.patch then
      .suitable
    else .unsuitable
  else
    if candidate.minor > required.minor ∨
        (candidate.minor = required.minor ∧ candidate.patch ≥ required.patch) then
      .suitable
    else .unsuitable

/-- Embedding of `ArbiterRequirement` as a closed tagged variant (spec
section 3, "Requirement", and section 9, "Polymorphic predicate variants"):
Any, AtLeast, CompatibleWith, Exactly, Custom and the Compound combinator,
matching the constructors declared in Requirement.h lines 81-129. -/
inductive ArbiterRequirement where
  | any
  | atLeast (version : ArbiterSemanticVersion)
  | compatibleWith (version : ArbiterSemanticVersion)
      (strictness : ArbiterRequirementStrictness)
  | exactly (version : ArbiterSemanticVersion)
  | custom (predicate : ArbiterSemanticVersion → ArbiterRequirementSuitability)
  | compound (requirements : List ArbiterRequirement)

mutual

/-- Modelled from the spec (sections 3 and 4.1): evaluation of
`ArbiterRequirementSatisfiedBy` (Requirement.h lines 131-134).  `Any` matches
everything; `Exactly` is structural equality including prerelease and build
metadata; `Custom` invokes the supplied predicate; `Compound` combines the
members' verdicts. -/
def ArbiterRequirementSatisfiedBy : ArbiterRequirement →
    ArbiterSemanticVersion → ArbiterRequirementSuitability
  | .any, _ => .suitable
  | .atLeast v, candidate => atLeastSatisfiedBy v candidate
  | .compatibleWith v s, candidate => compatibleWithSatisfiedBy v s candidate
  | .exactly v, candidate =>
    if candidate = v then .suitable else .unsuitable
  | .custom p, candidate => p candidate
  | .compound list, candidate => compoundSatisfiedBy list candidate

/-- Modelled from the spec (section 3, Compound): fold of
`combineSuitability` over the members' verdicts, Suitable for an empty list
(an empty conjunction is satisfied). -/
def compoundSatisfiedBy : List ArbiterRequirement →
    ArbiterSemanticVersion → ArbiterRequirementSuitability
  | [], _ => .suitable
  | r :: rest, candidate =>
    combineSuitability (ArbiterRequirementSatisfiedBy r candidate)
      (compoundSatisfiedBy rest candidate)

end

theorem combineSuitability_unsuitable_left (b : ArbiterRequirementSuitability) :
    combineSuitability .unsuitable b = .unsuitable := by
  simp [combineSuitability]

theorem combineSuitability_unsuitable_right (a : ArbiterRequirementSuitability) :
    combineSuitability a .unsuitable = .unsuitable := by
  simp [combineSuitability]

theorem combineSuitability_eq_max (a b : ArbiterRequirementSuitability)
    (ha : a ≠ .unsuitable) (hb : b ≠ .unsuitable) :
    combineSuitability a b = maxSuitability a b := by
  simp [combineSuitability, ha, hb]

theorem maxSuitability_ne_unsuitable (a b : ArbiterRequirementSuitability)
    (ha : a ≠ .unsuitable) (hb : b ≠ .unsuitable) :
    maxSuitability a b ≠ .unsuitable := by
  unfold maxSuitability
  split <;> assumption

theorem compoundSatisfiedBy_ne_unsuitable
    (reqs : List ArbiterRequirement) (candidate : ArbiterSemanticVersion)
    (h : ∀ r ∈ reqs, ArbiterRequirementSatisfiedBy r candidate ≠ .unsuitable) :
    compoundSatisfiedBy reqs candidate ≠ .unsuitable := by
  induction reqs with
  | nil => simp [compoundSatisfiedBy]
  | cons r rest ih =>
    have hr := h r (by simp)
    have hrest := ih (fun q hq => h q (by simp [hq]))
    rw [compoundSatisfiedBy, combineSuitability_eq_max _ _ hr hrest]
    exact maxSuitability_ne_unsuitable _ _ hr hrest

theorem compoundSatisfiedBy_unsuitable_of_mem
    (reqs : List ArbiterRequirement) (candidate : ArbiterSemanticVersion)
    (h : ∃ r ∈ reqs, ArbiterRequirementSatisfiedBy r candidate = .unsuitable) :
    compoundSatisfiedBy reqs candidate = .unsuitable := by
  induction reqs with
  | nil => simp at h
  | cons r rest ih =>
    rw [compoundSatisfiedBy]
    rcases h with ⟨q, hq, hqu⟩
    rcases List.mem_cons.mp hq with hq | hq
    · subst hq
      rw [hqu, combineSuitability_unsuitable_left]
    · rw [ih ⟨q, hq, hqu⟩, combineSuitability_unsuitable_right]

theorem compoundSatisfiedBy_eq_max
    (reqs : List ArbiterRequirement) (candidate : ArbiterSemanticVersion)
    (h : ∀ r ∈ reqs, ArbiterRequirementSatisfiedBy r candidate ≠ .unsuitable) :
    compoundSatisfiedBy reqs candidate =
      listMaxSuitability
        (reqs.map (fun r => ArbiterRequirementSatisfiedBy r candidate)) := by
  induction reqs with
  | nil => simp [compoundSatisfiedBy, listMaxSuitability]
  | cons r rest ih =>
    have hr := h r (by simp)
    have hrest := compoundSatisfiedBy_ne_unsuitable rest candidate
      (fun q hq => h q (by simp [hq]))
    rw [compoundSatisfiedBy, combineSuitability_eq_max _ _ hr hrest, List.map_cons,
      listMaxSuitability, ih (fun q hq => h q (by simp [hq]))]

/-- C2: a Compound requirement evaluates to Unsuitable as soon as any member
is Unsuitable for the candidate, and otherwise to the maximum suitability
among the members' verdicts under Unsuitable < Suitable < BestPossibleChoice;
in particular one BestPossibleChoice member together with one Unsuitable
member yields Unsuitable. -/
theorem compound_requirement_satisfiedBy_spec
    (reqs : List ArbiterRequirement) (candidate : ArbiterSemanticVersion) :
    ((∃ r ∈ reqs, ArbiterRequirementSatisfiedBy r candidate = .unsuitable) →
      ArbiterRequirementSatisfiedBy (.compound reqs) candidate = .unsuitable)
    ∧ ((∀ r ∈ reqs, ArbiterRequirementSatisfiedBy r candidate ≠ .unsuitable) →
      ArbiterRequirementSatisfiedBy (.compound reqs) candidate =
        listMaxSuitability
          (reqs.map (fun r => ArbiterRequirementSatisfiedBy r candidate)))
    ∧ ArbiterRequirementSatisfiedBy
        (.compound [.custom (fun _ => .bestPossibleChoice),
          .custom (fun _ => .unsuitable)]) candidate = .unsuitable := by
  refine ⟨?_, ?_, ?_⟩
  · intro h
    rw [ArbiterRequirementSatisfiedBy]
    exact compoundSatisfiedBy_unsuitable_of_mem reqs candidate h
  · intro h
    rw [ArbiterRequirementSatisfiedBy]
    exact compoundSatisfiedBy_eq_max reqs candidate h
  · rfl

/-- Witness for C2 at a concrete compound requirement and candidate. -/
theorem compound_requirement_satisfiedBy_spec_witness :
    ((∃ r ∈ [ArbiterRequirement.any,
        ArbiterRequirement.exactly ⟨1, 0, 0, none, none⟩],
        ArbiterRequirementSatisfiedBy r ⟨1, 0, 0, none, none⟩ = .unsuitable) →
      ArbiterRequirementSatisfiedBy
        (.compound [.any, .exactly ⟨1, 0, 0, none, none⟩])
        ⟨1, 0, 0, none, none⟩ = .unsuitable)
    ∧ ((∀ r ∈ [ArbiterRequirement.any,
        ArbiterRequirement.exactly ⟨1, 0, 0, none, none⟩],
        ArbiterRequirementSatisfiedBy r ⟨1, 0, 0, none, none⟩ ≠ .unsuitable) →
      ArbiterRequirementSatisfiedBy
        (.compound [.any, .exactly ⟨1, 0, 0, none, none⟩])
        ⟨1, 0, 0, none, none⟩ =
        listMaxSuitability
          ([ArbiterRequirement.any,
            ArbiterRequirement.exactly ⟨1, 0, 0, none, none⟩].map
            (fun r => ArbiterRequirementSatisfiedBy r ⟨1, 0, 0, none, none⟩)))
    ∧ ArbiterRequirementSatisfiedBy
        (.compound [.custom (fun _ => .bestPossibleChoice),
          .custom (fun _ => .unsuitable)]) ⟨1, 0, 0, none, none⟩ =
        .unsuitable :=
  compound_requirement_satisfiedBy_spec
    [.any, .exactly ⟨1, 0, 0, none, none⟩] ⟨1, 0, 0, none, none⟩

/-- A release version carrying neither prerelease identifier nor build
metadata. -/
def mkVersion (major minor patch : Nat) : ArbiterSemanticVersion :=
  ⟨major, minor, patch, none, none⟩

/-- C3 counterexample: for the required version 1.2.0 the prerelease candidate
1.3.0-alpha has the same major and a greater minor, yet CompatibleWith
evaluates to Unsuitable (the prerelease rule of spec section 4.1 overrides the
numeric rule), refuting the claim's unrestricted "Suitable iff" for every
candidate version. -/
theorem compatibleWith_prerelease_counterexample :
    (⟨1, 3, 0, some "alpha", none⟩ : ArbiterSemanticVersion).major =
      (mkVersion 1 2 0).major
    ∧ (mkVersion 1 2 0).minor <
      (⟨1, 3, 0, some "alpha", none⟩ : ArbiterSemanticVersion).minor
    ∧ ArbiterRequirementSatisfiedBy
        (.compatibleWith (mkVersion 1 2 0) .strict)
        ⟨1, 3, 0, some "alpha", none⟩ = .unsuitable := by
  decide

/-- C3 (amended): for a required version with major ≥ 1, CompatibleWith is
Unsuitable whenever the candidate's major differs; for a candidate that
carries no prerelease identifier (or lies in the required version's prerelease
line) and has the same major, it is Suitable iff the candidate's minor is
greater, or the minors match and the candidate's patch is at least the
required patch; the spec's concrete examples for CompatibleWith(1.2.0) hold. -/
theorem compatibleWith_major_ge_one_spec (v candidate : ArbiterSemanticVersion)
    (s : ArbiterRequirementStrictness) (hmaj : 1 ≤ v.major) :
    (candidate.major ≠ v.major →
      ArbiterRequirementSatisfiedBy (.compatibleWith v s) candidate =
        .unsuitable)
    ∧ ((candidate.prerelease = none ∨ inSamePrereleaseLine v candidate = true) →
      candidate.major = v.major →
      (ArbiterRequirementSatisfiedBy (.compatibleWith v s) candidate =
          .suitable ↔
        v.minor < candidate.minor ∨
          (candidate.minor = v.minor ∧ v.patch ≤ candidate.patch)))
    ∧ (ArbiterRequirementSatisfiedBy
        (.compatibleWith (mkVersion 1 2 0) s) (mkVersion 1 2 0) = .suitable
      ∧ ArbiterRequirementSatisfiedBy
        (.compatibleWith (mkVersion 1 2 0) s) (mkVersion 1 2 5) = .suitable
      ∧ ArbiterRequirementSatisfiedBy
        (.compatibleWith (mkVersion 1 2 0) s) (mkVersion 1 9 0) = .suitable
      ∧ ArbiterRequirementSatisfiedBy
        (.compatibleWith (mkVersion 1 2 0) s) (mkVersion 2 0 0) = .unsuitable
      ∧ ArbiterRequirementSatisfiedBy
        (.compatibleWith (mkVersion 1 2 0) s) (mkVersion 1 1 9) =
          .unsuitable) := by
  refine ⟨?_, ?_, ?_⟩
  · intro hne
    rw [ArbiterRequirementSatisfiedBy, compatibleWithSatisfiedBy]
    split_ifs <;> rfl
  · intro hpre hmajeq
    have hgate : ¬(candidate.prerelease.isSome = true ∧
        ¬(inSamePrereleaseLine v candidate = true)) := by
      rcases hpre with h | h
      · intro hc
        rw [h] at hc
        simp at hc
      · intro hc
        exact hc.2 h
    rw [ArbiterRequirementSatisfiedBy, compatibleWithSatisfiedBy, if_neg hgate,
      if_neg (not_not_intro hmajeq), if_neg (by omega : ¬ v.major = 0)]
    split_ifs with hcond
    · simpa using hcond
    · simpa using hcond
  · cases s <;> decide

/-- Witness for C3 (amended) at the required version 1.2.0 and candidate
1.9.0 with strict mode. -/
theorem compatibleWith_major_ge_one_spec_witness :
    1 ≤ (mkVersion 1 2 0).major
    ∧ (((mkVersion 1 9 0).major ≠ (mkVersion 1 2 0).major →
      ArbiterRequirementSatisfiedBy
        (.compatibleWith (mkVersion 1 2 0) .strict) (mkVersion 1 9 0) =
          .unsuitable)
    ∧ (((mkVersion 1 9 0).prerelease = none ∨
        inSamePrereleaseLine (mkVersion 1 2 0) (mkVersion 1 9 0) = true) →
      (mkVersion 1 9 0).major = (mkVersion 1 2 0).major →
      (ArbiterRequirementSatisfiedBy
          (.compatibleWith (mkVersion 1 2 0) .strict) (mkVersion 1 9 0) =
          .suitable ↔
        (mkVersion 1 2 0).minor < (mkVersion 1 9 0).minor ∨
          ((mkVersion 1 9 0).minor = (mkVersion 1 2 0).minor ∧
            (mkVersion 1 2 0).patch ≤ (mkVersion 1 9 0).patch)))
    ∧ (ArbiterRequirementSatisfiedBy
        (.compatibleWith (mkVersion 1 2 0) .strict) (mkVersion 1 2 0) =
          .suitable
      ∧ ArbiterRequirementSatisfiedBy
        (.compatibleWith (mkVersion 1 2 0) .strict) (mkVersion 1 2 5) =
          .suitable
      ∧ ArbiterRequirementSatisfiedBy
        (.compatibleWith (mkVersion 1 2 0) .strict) (mkVersion 1 9 0) =
          .suitable
      ∧ ArbiterRequirementSatisfiedBy
        (.compatibleWith (mkVersion 1 2 0) .strict) (mkVersion 2 0 0) =
          .unsuitable
      ∧ ArbiterRequirementSatisfiedBy
        (.compatibleWith (mkVersion 1 2 0) .strict) (mkVersion 1 1 9) =
          .unsuitable)) :=
  ⟨by decide,
    compatibleWith_major_ge_one_spec (mkVersion 1 2 0) (mkVersion 1 9 0)
      .strict (by decide)⟩

/-- C4 counterexample: for the required version 0.3.1 in strict mode the
prerelease candidate 0.3.5-alpha has major 0, the same minor and a patch at
least the required patch, yet CompatibleWith evaluates to Unsuitable (the
prerelease rule of spec section 4.1 overrides the numeric rule), refuting the
claim's unrestricted "if and only if" for every candidate version. -/
theorem compatibleWith_zero_major_prerelease_counterexample :
    (⟨0, 3, 5, some "alpha", none⟩ : ArbiterSemanticVersion).major = 0
    ∧ (⟨0, 3, 5, some "alpha", none⟩ : ArbiterSemanticVersion).minor =
      (mkVersion 0 3 1).minor
    ∧ (mkVersion 0 3 1).patch ≤
      (⟨0, 3, 5, some "alpha", none⟩ : ArbiterSemanticVersion).patch
    ∧ ArbiterRequirementSatisfiedBy
        (.compatibleWith (mkVersion 0 3 1) .strict)
        ⟨0, 3, 5, some "alpha", none⟩ = .unsuitable := by
  decide

/-- C4 (amended): for a required version with major 0 in strict mode,
CompatibleWith is Suitable iff the candidate carries no prerelease identifier
(or lies in the required version's prerelease line), its major is 0, its minor
matches the required minor, and its patch is at least the required patch; the
spec's concrete examples for CompatibleWith(0.3.1, strict) hold. -/
theorem compatibleWith_major_zero_strict_spec
    (v candidate : ArbiterSemanticVersion) (hmaj : v.major = 0) :
    (ArbiterRequirementSatisfiedBy (.compatibleWith v .strict) candidate =
        .suitable ↔
      ((candidate.prerelease = none ∨
          inSamePrereleaseLine v candidate = true) ∧
        candidate.major = 0 ∧ candidate.minor = v.minor ∧
        v.patch ≤ candidate.patch))
    ∧ (ArbiterRequirementSatisfiedBy
        (.compatibleWith (mkVersion 0 3 1) .strict) (mkVersion 0 3 1) =
          .suitable
      ∧ ArbiterRequirementSatisfiedBy
        (.compatibleWith (mkVersion 0 3 1) .strict) (mkVersion 0 3 9) =
          .suitable
      ∧ ArbiterRequirementSatisfiedBy
        (.compatibleWith (mkVersion 0 3 1) .strict) (mkVersion 0 4 0) =
          .unsuitable
      ∧ ArbiterRequirementSatisfiedBy
        (.compatibleWith (mkVersion 0 3 1) .strict) (mkVersion 0 3 0) =
          .unsuitable) := by
  constructor
  · rw [ArbiterRequirementSatisfiedBy, compatibleWithSatisfiedBy]
    split_ifs with h1 h2 h3
    · constructor
      · intro h
        exact absurd h (by decide)
      · rintro ⟨hp, -, -, -⟩
        rcases hp with hp | hp
        · rw [hp] at h1
          simp at h1
        · exact absurd hp h1.2
    · constructor
      · intro h
        exact absurd h (by decide)
      · rintro ⟨-, hm0, -, -⟩
        exact h2 (by omega)
    · rw [not_not] at h2
      constructor
      · intro _
        refine ⟨?_, by omega, h3.1, h3.2⟩
        by_cases hp : candidate.prerelease = none
        · exact Or.inl hp
        · right
          by_contra hline
          exact h1 ⟨by rcases hcp : candidate.prerelease with - | p <;>
            simp_all, hline⟩
      · intro _
        rfl
    · constructor
      · intro h
        exact absurd h (by decide)
      · rintro ⟨-, -, hmin, hpat⟩
        exact h3 ⟨hmin, hpat⟩
  · decide

/-- Witness for C4 (amended) at the required version 0.3.1 and candidate
0.3.9. -/
theorem compatibleWith_major_zero_strict_spec_witness :
    (mkVersion 0 3 1).major = 0
    ∧ ((ArbiterRequirementSatisfiedBy
        (.compatibleWith (mkVersion 0 3 1) .strict) (mkVersion 0 3 9) =
          .suitable ↔
      (((mkVersion 0 3 9).prerelease = none ∨
          inSamePrereleaseLine (mkVersion 0 3 1) (mkVersion 0 3 9) = true) ∧
        (mkVersion 0 3 9).major = 0 ∧
        (mkVersion 0 3 9).minor = (mkVersion 0 3 1).minor ∧
        (mkVersion 0 3 1).patch ≤ (mkVersion 0 3 9).patch))
    ∧ (ArbiterRequirementSatisfiedBy
        (.compatibleWith (mkVersion 0 3 1) .strict) (mkVersion 0 3 1) =
          .suitable
      ∧ ArbiterRequirementSatisfiedBy
        (.compatibleWith (mkVersion 0 3 1) .strict) (mkVersion 0 3 9) =
          .suitable
      ∧ ArbiterRequirementSatisfiedBy
        (.compatibleWith (mkVersion 0 3 1) .strict) (mkVersion 0 4 0) =
          .unsuitable
      ∧ ArbiterRequirementSatisfiedBy
        (.compatibleWith (mkVersion 0 3 1) .strict) (mkVersion 0 3 0) =
          .unsuitable)) :=
  ⟨by decide,
    compatibleWith_major_zero_strict_spec (mkVersion 0 3 1) (mkVersion 0 3 9)
      (by decide)⟩

/-- C5: a candidate carrying a prerelease identifier that is not in the
required version's prerelease line is never matched by AtLeast or
CompatibleWith — both evaluate to Unsuitable (spec section 4.1). -/
theorem prerelease_outside_line_never_matched
    (v candidate : ArbiterSemanticVersion) (s : ArbiterRequirementStrictness)
    (hpre : candidate.prerelease.isSome = true)
    (hline : inSamePrereleaseLine v candidate = false) :
    ArbiterRequirementSatisfiedBy (.atLeast v) candidate = .unsuitable ∧
    ArbiterRequirementSatisfiedBy (.compatibleWith v s) candidate =
      .unsuitable := by
  have hgate : candidate.prerelease.isSome = true ∧
      ¬(inSamePrereleaseLine v candidate = true) := ⟨hpre, by simp [hline]⟩
  constructor
  · rw [ArbiterRequirementSatisfiedBy, atLeastSatisfiedBy, if_pos hgate]
  · rw [ArbiterRequirementSatisfiedBy, compatibleWithSatisfiedBy, if_pos hgate]

/-- Witness for C5 at the required version 1.0.0 and the prerelease candidate
2.0.0-alpha. -/
theorem prerelease_outside_line_never_matched_witness :
    (⟨2, 0, 0, some "alpha", none⟩ :
        ArbiterSemanticVersion).prerelease.isSome = true
    ∧ inSamePrereleaseLine (mkVersion 1 0 0) ⟨2, 0, 0, some "alpha", none⟩ =
        false
    ∧ (ArbiterRequirementSatisfiedBy (.atLeast (mkVersion 1 0 0))
        ⟨2, 0, 0, some "alpha", none⟩ = .unsuitable ∧
      ArbiterRequirementSatisfiedBy
        (.compatibleWith (mkVersion 1 0 0) .strict)
        ⟨2, 0, 0, some "alpha", none⟩ = .unsuitable) :=
  ⟨by decide, by decide,
    prerelease_outside_line_never_matched (mkVersion 1 0 0)
      ⟨2, 0, 0, some "alpha", none⟩ .strict (by decide) (by decide)⟩

/-- C6: an Exactly requirement is Suitable for its own version and Unsuitable
for every structurally different version, including versions differing only in
build metadata or only in the prerelease tag (structural equality per spec
sections 3 and 4.1). -/
theorem exactly_requirement_spec (v w : ArbiterSemanticVersion)
    (hne : w ≠ v) :
    ArbiterRequirementSatisfiedBy (.exactly v) v = .suitable ∧
    ArbiterRequirementSatisfiedBy (.exactly v) w = .unsuitable := by
  constructor
  · rw [ArbiterRequirementSatisfiedBy, if_pos rfl]
  · rw [ArbiterRequirementSatisfiedBy, if_neg hne]

/-- Witness for C6 at 1.0.0 against 1.0.0+build5, which differs only in build
metadata. -/
theorem exactly_requirement_spec_witness :
    (⟨1, 0, 0, none, some "build5"⟩ : ArbiterSemanticVersion) ≠
      mkVersion 1 0 0
    ∧ (ArbiterRequirementSatisfiedBy (.exactly (mkVersion 1 0 0))
        (mkVersion 1 0 0) = .suitable ∧
      ArbiterRequirementSatisfiedBy (.exactly (mkVersion 1 0 0))
        ⟨1, 0, 0, none, some "build5"⟩ = .unsuitable) :=
  ⟨by decide,
    exactly_requirement_spec (mkVersion 1 0 0)
      ⟨1, 0, 0, none, some "build5"⟩ (by decide)⟩

namespace Arbiter

/-- Embedding of `Arbiter::hashOf` (`src/src/Hash.h` lines 12-16):
`return std::hash<T>()(value);`.  The standard hasher `std::hash<T>` is an
external collaborator, modelled as an arbitrary per-type hash function. -/
def hashOf {T : Type} (stdHash : T → Nat) (value : T) : Nat :=
  stdHash value

end Arbiter

/-- C10: `Arbiter::hashOf` returns exactly the standard hasher's value; it is
therefore deterministic and any two equal values of the same type receive
equal hash codes. -/
theorem hashOf_spec {T : Type} (stdHash : T → Nat) (v w : T) (hvw : v = w) :
    Arbiter.hashOf stdHash v = stdHash v ∧
    Arbiter.hashOf stdHash v = Arbiter.hashOf stdHash w := by
  subst hvw
  exact ⟨rfl, rfl⟩

/-- Witness for C10 at the identity hasher on natural numbers and value 3. -/
theorem hashOf_spec_witness :
    (3 : Nat) = 3 ∧ (Arbiter.hashOf (fun n : Nat => n) 3 =
      (fun n : Nat => n) 3 ∧
    Arbiter.hashOf (fun n : Nat => n) 3 =
      Arbiter.hashOf (fun n : Nat => n) 3) :=
  ⟨rfl, hashOf_spec (fun n : Nat => n) 3 3 rfl⟩

/-- Embedding of `ArbiterProjectIdentifier` (spec section 3): an opaque
immutable comparable key, modelled as a natural number. -/
abbrev ArbiterProjectIdentifier := Nat

/-- Embedding of `ArbiterDependencyList` (spec section 3): the
(project, requirement) pairs owned by one version of one project. -/
abbrev ArbiterDependencyList :=
  List (ArbiterProjectIdentifier × ArbiterRequirement)

/-- Modelled from the spec: the DataSource contract of
`ArbiterResolverBehaviors` (Resolver.h lines 28-67, spec sections 2 and 6) —
`createDependencyList` and `createAvailableVersionsList`, each returning a
value or an error string.  The optional `createSelectedVersionForMetadata`
callback is omitted: dependency edges in the model are always expressed as
requirements, so the metadata-lookup path is never taken. -/
structure ArbiterResolverBehaviors where
  createDependencyList : ArbiterProjectIdentifier → ArbiterSemanticVersion →
    Except String ArbiterDependencyList
  createAvailableVersionsList : ArbiterProjectIdentifier →
    Except String (List ArbiterSemanticVersion)

/-- One DataSource callback invocation, recorded so the caching discipline of
spec section 4.2 can be stated. -/
inductive CallEvent where
  | versionsCall (project : ArbiterProjectIdentifier)
  | depsCall (project : ArbiterProjectIdentifier)
      (version : ArbiterSemanticVersion)
deriving DecidableEq

/-- Modelled from the spec (section 3, "Resolver"): the per-session mutable
state — a memo cache of per-project available-version lists, a memo cache of
per-(project, version) dependency lists — together with the ordered log of
DataSource invocations made so far. -/
structure ResolverState where
  versionsCache :
    List (ArbiterProjectIdentifier × List ArbiterSemanticVersion)
  depsCache :
    List ((ArbiterProjectIdentifier × ArbiterSemanticVersion) ×
      ArbiterDependencyList)
  callLog : List CallEvent

/-- A fresh resolver session: empty caches, no calls made. -/
def initialResolverState : ResolverState := ⟨[], [], []⟩

/-- First value bound to a key in an association list. -/
def lookupKey {κ α : Type} [DecidableEq κ] (k : κ) : List (κ × α) → Option α
  | [] => none
  | (q, x) :: rest => if q = k then some x else lookupKey k rest

/-- Modelled from the spec (section 4.2 step 2 and caching discipline): fetch
the available-version list for a project through the memo cache, invoking the
DataSource callback only on a cache miss and recording the invocation. -/
def fetchVersions (behaviors : ArbiterResolverBehaviors)
    (st : ResolverState) (p : ArbiterProjectIdentifier) :
    ResolverState × Except String (List ArbiterSemanticVersion) :=
  match lookupKey p st.versionsCache with
  | some versions => (st, .ok versions)
  | none =>
    match behaviors.createAvailableVersionsList p with
    | .error msg =>
      ({ st with callLog := st.callLog ++ [.versionsCall p] }, .error msg)
    | .ok versions =>
      ({ st with
          versionsCache := (p, versions) :: st.versionsCache,
          callLog := st.callLog ++ [.versionsCall p] }, .ok versions)

/-- Modelled from the spec (section 4.2 step 4 and caching discipline): fetch
the dependency list of one version of a project through the memo cache,
invoking the DataSource callback only on a cache miss and recording the
invocation. -/
def fetchDeps (behaviors : ArbiterResolverBehaviors)
    (st : ResolverState) (p : ArbiterProjectIdentifier)
    (v : ArbiterSemanticVersion) :
    ResolverState × Except String ArbiterDependencyList :=
  match lookupKey (p, v) st.depsCache with
  | some deps => (st, .ok deps)
  | none =>
    match behaviors.createDependencyList p v with
    | .error msg =>
      ({ st with callLog := st.callLog ++ [.depsCall p v] }, .error msg)
    | .ok deps =>
      ({ st with
          depsCache := ((p, v), deps) :: st.depsCache,
          callLog := st.callLog ++ [.depsCall p v] }, .ok deps)

/-- Embedding of `ArbiterResolvedDependencyGraph` (spec section 3): each
selected project with its selected version and the retained requirement edges
that constrained it. -/
abbrev ArbiterResolvedDependencyGraph :=
  List (ArbiterProjectIdentifier × ArbiterSemanticVersion ×
    List ArbiterRequirement)

/-- Outcome of a resolution pass (spec section 7): success with a graph, the
soft unsatisfiable-constraints failure naming a project, the hard external
DataSource failure carrying the callback's error unmodified, or exhaustion of
the model's recursion fuel. -/
inductive ResolutionOutcome where
  | ok (graph : ArbiterResolvedDependencyGraph)
  | unsatisfiable (project : ArbiterProjectIdentifier)
  | fatal (message : String)
  | outOfFuel

/-- Insert a version into a descending-sorted list (newest first). -/
def insertDescending (v : ArbiterSemanticVersion) :
    List ArbiterSemanticVersion → List ArbiterSemanticVersion
  | [] => [v]
  | w :: rest =>
    if semanticVersionLe w v then v :: w :: rest
    else w :: insertDescending v rest

/-- Sort versions by descending precedence (newest first). -/
def sortDescending : List ArbiterSemanticVersion →
    List ArbiterSemanticVersion
  | [] => []
  | v :: rest => insertDescending v (sortDescending rest)

/-- Modelled from the spec (section 4.2 step 3): candidate preference order —
BestPossibleChoice candidates first in first-encountered order, then the
Suitable candidates by descending version precedence; Unsuitable candidates
are never tried. -/
def orderCandidates (req : ArbiterRequirement)
    (versions : List ArbiterSemanticVersion) :
    List ArbiterSemanticVersion :=
  versions.filter
      (fun v =>
        decide (ArbiterRequirementSatisfiedBy req v = .bestPossibleChoice))
    ++ sortDescending (versions.filter
      (fun v => decide (ArbiterRequirementSatisfiedBy req v = .suitable)))

/-- Add a newly merged requirement edge to the accumulated edge list of the
entry for the given project (spec section 4.2 steps 1 and 5: the project's
accumulated Compound gains the new dependent's requirement). -/
def addRequirement (p : ArbiterProjectIdentifier) (req : ArbiterRequirement) :
    ArbiterResolvedDependencyGraph → ArbiterResolvedDependencyGraph
  | [] => []
  | (q, v, accumulated) :: rest =>
    if q = p then (q, v, req :: accumulated) :: rest
    else (q, v, accumulated) :: addRequirement p req rest

mutual

/-- Modelled from the spec (section 4.2, steps 1-8): the backtracking
depth-first search.  Processes a queue of outstanding (project, requirement)
edges against the current partial assignment (each entry holding the
tentatively selected version and the accumulated requirement edges).  An edge
toward an already-selected project revalidates the selection in place against
the grown accumulated Compound (steps 5-6, also the cycle rule); an edge
toward a new project fetches the available versions through the memo cache and
tries the candidates in preference order (steps 2-4); an empty queue is the
success state (step 7).  The fuel argument bounds the recursion depth of the
model. -/
def resolveQueue (behaviors : ArbiterResolverBehaviors) :
    Nat → ResolverState → ArbiterResolvedDependencyGraph →
    List (ArbiterProjectIdentifier × ArbiterRequirement) →
    ResolverState × ResolutionOutcome
  | 0, st, _, _ => (st, .outOfFuel)
  | _ + 1, st, assigned, [] => (st, .ok assigned)
  | fuel + 1, st, assigned, (p, req) :: rest =>
    match lookupKey p assigned with
    | some (v, accumulated) =>
      if ArbiterRequirementSatisfiedBy (.compound (req :: accumulated)) v =
          .unsuitable then
        (st, .unsatisfiable p)
      else
        resolveQueue behaviors fuel st (addRequirement p req assigned) rest
    | none =>
      match fetchVersions behaviors st p with
      | (st1, .error msg) => (st1, .fatal msg)
      | (st1, .ok versions) =>
        tryCandidates behaviors fuel st1 assigned p req rest
          (orderCandidates req versions)

/-- Modelled from the spec (section 4.2 steps 4-5 and 8): try each candidate
version in preference order.  A tentative selection fetches the candidate's
dependency list through the memo cache and enqueues its edges; a soft
unsatisfiable outcome backtracks to the next candidate, keeping the session
caches; a hard DataSource error aborts the whole resolution; exhausting the
candidate list is the soft unsatisfiable-constraints failure for the
project. -/
def tryCandidates (behaviors : ArbiterResolverBehaviors) :
    Nat → ResolverState → ArbiterResolvedDependencyGraph →
    ArbiterProjectIdentifier → ArbiterRequirement →
    List (ArbiterProjectIdentifier × ArbiterRequirement) →
    List ArbiterSemanticVersion → ResolverState × ResolutionOutcome
  | 0, st, _, _, _, _, _ => (st, .outOfFuel)
  | _ + 1, st, _, p, _, _, [] => (st, .unsatisfiable p)
  | fuel + 1, st, assigned, p, req, rest, candidate :: moreCandidates =>
    match fetchDeps behaviors st p candidate with
    | (st1, .error msg) => (st1, .fatal msg)
    | (st1, .ok deps) =>
      match resolveQueue behaviors fuel st1
          ((p, candidate, [req]) :: assigned) (deps ++ rest) with
      | (st2, .unsatisfiable _) =>
        tryCandidates behaviors fuel st2 assigned p req rest moreCandidates
      | (st2, outcome) => (st2, outcome)

end

/-- Modelled from the spec (section 4.2 and Resolver.h lines 86-94):
`ArbiterResolverCreateResolvedDependencyGraph` — attempt to resolve all
dependencies of the root dependency list on a fresh resolver session. -/
def ArbiterResolverCreateResolvedDependencyGraph
    (behaviors : ArbiterResolverBehaviors) (fuel : Nat)
    (rootDependencyList : ArbiterDependencyList) :
    ResolverState × ResolutionOutcome :=
  resolveQueue behaviors fuel initialResolverState [] rootDependencyList

/-- The named callback of a call event returns this error string. -/
def eventErrors (behaviors : ArbiterResolverBehaviors) :
    CallEvent → String → Prop
  | .versionsCall p, msg =>
    behaviors.createAvailableVersionsList p = .error msg
  | .depsCall p v, msg => behaviors.createDependencyList p v = .error msg

/-- The result of a call event is present in the session's memo caches. -/
def eventCached (st : ResolverState) : CallEvent → Prop
  | .versionsCall p =>
    ∃ versions, lookupKey p st.versionsCache = some versions
  | .depsCall p v => ∃ deps, lookupKey (p, v) st.depsCache = some deps

/-- The memo caches record exactly successful DataSource results. -/
def CachesCorrect (behaviors : ArbiterResolverBehaviors)
    (st : ResolverState) : Prop :=
  (∀ p versions, lookupKey p st.versionsCache = some versions →
    behaviors.createAvailableVersionsList p = .ok versions) ∧
  (∀ p v deps, lookupKey (p, v) st.depsCache = some deps →
    behaviors.createDependencyList p v = .ok deps)

/-- A healthy session state: no DataSource callback was ever invoked twice
with the same arguments, every recorded invocation has its result memoized,
and the caches agree with the DataSource. -/
def GoodState (behaviors : ArbiterResolverBehaviors)
    (st : ResolverState) : Prop :=
  st.callLog.Nodup ∧ (∀ ev ∈ st.callLog, eventCached st ev) ∧
    CachesCorrect behaviors st

/-- The second state continues the first: memoized results persist and the
call log grows monotonically. -/
def StateExtends (st st' : ResolverState) : Prop :=
  (∀ p versions, lookupKey p st.versionsCache = some versions →
    lookupKey p st'.versionsCache = some versions) ∧
  (∀ p v deps, lookupKey (p, v) st.depsCache = some deps →
    lookupKey (p, v) st'.depsCache = some deps) ∧
  ∃ grown, st'.callLog = st.callLog ++ grown

/-- Shape of the final state of a run aborted by a hard DataSource error: the
erroring invocation is the last entry of the call log (nothing runs after it),
its callback produced exactly the reported error, every earlier invocation
succeeded and is memoized, and no invocation was repeated. -/
def FatalShape (behaviors : ArbiterResolverBehaviors) (st' : ResolverState)
    (msg : String) : Prop :=
  ∃ earlier lastEvent,
    st'.callLog = earlier ++ [lastEvent] ∧
    eventErrors behaviors lastEvent msg ∧
    (∀ ev ∈ earlier, eventCached st' ev) ∧
    CachesCorrect behaviors st' ∧
    st'.callLog.Nodup

/-- Invariant tying a step's entry state, final state and outcome together:
the final state continues the entry state; a non-fatal outcome leaves a
healthy session, a fatal outcome leaves the error-abort shape. -/
def StateOutcomeInv (behaviors : ArbiterResolverBehaviors)
    (st st' : ResolverState) : ResolutionOutcome → Prop
  | .fatal msg => StateExtends st st' ∧ FatalShape behaviors st' msg
  | _ => StateExtends st st' ∧ GoodState behaviors st'

theorem stateExtends_refl (st : ResolverState) : StateExtends st st :=
  ⟨fun _ _ h => h, fun _ _ _ h => h, [], by simp⟩

theorem stateExtends_trans {st1 st2 st3 : ResolverState}
    (h12 : StateExtends st1 st2) (h23 : StateExtends st2 st3) :
    StateExtends st1 st3 := by
  obtain ⟨hv12, hd12, g12, hl12⟩ := h12
  obtain ⟨hv23, hd23, g23, hl23⟩ := h23
  exact ⟨fun p vs h => hv23 p vs (hv12 p vs h),
    fun p v ds h => hd23 p v ds (hd12 p v ds h),
    g12 ++ g23, by rw [hl23, hl12, List.append_assoc]⟩

theorem eventCached_mono {st st' : ResolverState} (hext : StateExtends st st')
    {ev : CallEvent} (h : eventCached st ev) : eventCached st' ev := by
  cases ev with
  | versionsCall p =>
    obtain ⟨versions, hv⟩ := h
    exact ⟨versions, hext.1 p versions hv⟩
  | depsCall p v =>
    obtain ⟨deps, hd⟩ := h
    exact ⟨deps, hext.2.1 p v deps hd⟩

theorem fetchVersions_ok {behaviors : ArbiterResolverBehaviors}
    {st : ResolverState} {p : ArbiterProjectIdentifier}
    {st' : ResolverState} {versions : List ArbiterSemanticVersion}
    (hgood : GoodState behaviors st)
    (h : fetchVersions behaviors st p = (st', .ok versions)) :
    GoodState behaviors st' ∧ StateExtends st st' ∧
      behaviors.createAvailableVersionsList p = .ok versions := by
  obtain ⟨hnodup, hcached, hvc, hdc⟩ := hgood
  rw [fetchVersions] at h
  cases hl : lookupKey p st.versionsCache with
  | some cached =>
    simp only [hl] at h
    injection h with h1 h2
    injection h2 with h2
    subst h1
    subst h2
    exact ⟨⟨hnodup, hcached, hvc, hdc⟩, stateExtends_refl st,
      hvc p _ hl⟩
  | none =>
    simp only [hl] at h
    cases hb : behaviors.createAvailableVersionsList p with
    | error msg =>
      simp only [hb] at h
      injection h with h1 h2
      exact absurd h2 (by simp)
    | ok fetched =>
      simp only [hb] at h
      injection h with h1 h2
      injection h2 with h2
      subst h1
      subst h2
      have hnotin : CallEvent.versionsCall p ∉ st.callLog := by
        intro hmem
        obtain ⟨vs, hvs⟩ := hcached _ hmem
        rw [hl] at hvs
        cases hvs
      have hext : StateExtends st
          { st with
            versionsCache := (p, fetched) :: st.versionsCache,
            callLog := st.callLog ++ [.versionsCall p] } := by
        refine ⟨fun q vs hq => ?_, fun q v ds hq => hq, [.versionsCall p],
          rfl⟩
        show lookupKey q ((p, fetched) :: st.versionsCache) = some vs
        rw [lookupKey]
        split
        · next heq =>
          rw [heq] at hl
          rw [hl] at hq
          cases hq
        · exact hq
      refine ⟨⟨?_, ?_, fun q vs hq => ?_, fun q v ds hq => hdc q v ds hq⟩,
        hext, rfl⟩
      · simp only [List.nodup_append, List.nodup_cons, List.nodup_nil,
          and_true, List.disjoint_singleton]
        exact ⟨hnodup, by simpa using hnotin⟩
      · intro ev hev
        simp only [List.mem_append, List.mem_singleton] at hev
        rcases hev with hev | rfl
        · exact eventCached_mono hext (hcached ev hev)
        · exact ⟨fetched, by rw [lookupKey, if_pos rfl]⟩
      · show behaviors.createAvailableVersionsList q = .ok vs
        rw [lookupKey] at hq
        split at hq
        · next heq =>
          cases hq
          rw [← heq]
          exact hb
        · exact hvc q vs hq

theorem fetchVersions_error {behaviors : ArbiterResolverBehaviors}
    {st : ResolverState} {p : ArbiterProjectIdentifier}
    {st' : ResolverState} {msg : String}
    (hgood : GoodState behaviors st)
    (h : fetchVersions behaviors st p = (st', .error msg)) :
    StateExtends st st' ∧ FatalShape behaviors st' msg := by
  obtain ⟨hnodup, hcached, hvc, hdc⟩ := hgood
  rw [fetchVersions] at h
  cases hl : lookupKey p st.versionsCache with
  | some cached =>
    simp only [hl] at h
    injection h with h1 h2
    exact absurd h2 (by simp)
  | none =>
    simp only [hl] at h
    cases hb : behaviors.createAvailableVersionsList p with
    | ok fetched =>
      simp only [hb] at h
      injection h with h1 h2
      exact absurd h2 (by simp)
    | error m =>
      simp only [hb] at h
      injection h with h1 h2
      injection h2 with h2
      subst h1
      subst h2
      have hnotin : CallEvent.versionsCall p ∉ st.callLog := by
        intro hmem
        obtain ⟨vs, hvs⟩ := hcached _ hmem
        rw [hl] at hvs
        cases hvs
      have hext : StateExtends st
          { st with callLog := st.callLog ++ [.versionsCall p] } :=
        ⟨fun q vs hq => hq, fun q v ds hq => hq, [.versionsCall p], rfl⟩
      refine ⟨hext, st.callLog, .versionsCall p, rfl, hb, ?_, ⟨hvc, hdc⟩, ?_⟩
      · intro ev hev
        exact eventCached_mono hext (hcached ev hev)
      · simp only [List.nodup_append, List.nodup_cons, List.nodup_nil,
          and_true, List.disjoint_singleton]
        exact ⟨hnodup, by simpa using hnotin⟩

theorem fetchDeps_ok {behaviors : ArbiterResolverBehaviors}
    {st : ResolverState} {p : ArbiterProjectIdentifier}
    {v : ArbiterSemanticVersion} {st' : ResolverState}
    {deps : ArbiterDependencyList}
    (hgood : GoodState behaviors st)
    (h : fetchDeps behaviors st p v = (st', .ok deps)) :
    GoodState behaviors st' ∧ StateExtends st st' ∧
      behaviors.createDependencyList p v = .ok deps := by
  obtain ⟨hnodup, hcached, hvc, hdc⟩ := hgood
  rw [fetchDeps] at h
  cases hl : lookupKey (p, v) st.depsCache with
  | some cached =>
    simp only [hl] at h
    injection h with h1 h2
    injection h2 with h2
    subst h1
    subst h2
    exact ⟨⟨hnodup, hcached, hvc, hdc⟩, stateExtends_refl st,
      hdc p v _ hl⟩
  | none =>
    simp only [hl] at h
    cases hb : behaviors.createDependencyList p v with
    | error msg =>
      simp only [hb] at h
      injection h with h1 h2
      exact absurd h2 (by simp)
    | ok fetched =>
      simp only [hb] at h
      injection h with h1 h2
      injection h2 with h2
      subst h1
      subst h2
      have hnotin : CallEvent.depsCall p v ∉ st.callLog := by
        intro hmem
        obtain ⟨ds, hds⟩ := hcached _ hmem
        rw [hl] at hds
        cases hds
      have hext : StateExtends st
          { st with
            depsCache := ((p, v), fetched) :: st.depsCache,
            callLog := st.callLog ++ [.depsCall p v] } := by
        refine ⟨fun q vs hq => hq, fun q w ds hq => ?_, [.depsCall p v], rfl⟩
        show lookupKey (q, w) (((p, v), fetched) :: st.depsCache) = some ds
        rw [lookupKey]
        split
        · next heq =>
          rw [heq] at hl
          rw [hl] at hq
          cases hq
        · exact hq
      refine ⟨⟨?_, ?_, fun q vs hq => hvc q vs hq, fun q w ds hq => ?_⟩,
        hext, rfl⟩
      · simp only [List.nodup_append, List.nodup_cons, List.nodup_nil,
          and_true, List.disjoint_singleton]
        exact ⟨hnodup, by simpa using hnotin⟩
      · intro ev hev
        simp only [List.mem_append, List.mem_singleton] at hev
        rcases hev with hev | rfl
        · exact eventCached_mono hext (hcached ev hev)
        · exact ⟨fetched, by rw [lookupKey, if_pos rfl]⟩
      · show behaviors.createDependencyList q w = .ok ds
        rw [lookupKey] at hq
        split at hq
        · next heq =>
          cases hq
          have hq1 : p = q := congrArg Prod.fst heq
          have hq2 : v = w := congrArg Prod.snd heq
          rw [← hq1, ← hq2]
          exact hb
        · exact hdc q w ds hq

theorem fetchDeps_error {behaviors : ArbiterResolverBehaviors}
    {st : ResolverState} {p : ArbiterProjectIdentifier}
    {v : ArbiterSemanticVersion} {st' : ResolverState} {msg : String}
    (hgood : GoodState behaviors st)
    (h : fetchDeps behaviors st p v = (st', .error msg)) :
    StateExtends st st' ∧ FatalShape behaviors st' msg := by
  obtain ⟨hnodup, hcached, hvc, hdc⟩ := hgood
  rw [fetchDeps] at h
  cases hl : lookupKey (p, v) st.depsCache with
  | some cached =>
    simp only [hl] at h
    injection h with h1 h2
    exact absurd h2 (by simp)
  | none =>
    simp only [hl] at h
    cases hb : behaviors.createDependencyList p v with
    | ok fetched =>
      simp only [hb] at h
      injection h with h1 h2
      exact absurd h2 (by simp)
    | error m =>
      simp only [hb] at h
      injection h with h1 h2
      injection h2 with h2
      subst h1
      subst h2
      have hnotin : CallEvent.depsCall p v ∉ st.callLog := by
        intro hmem
        obtain ⟨ds, hds⟩ := hcached _ hmem
        rw [hl] at hds
        cases hds
      have hext : StateExtends st
          { st with callLog := st.callLog ++ [.depsCall p v] } :=
        ⟨fun q vs hq => hq, fun q w ds hq => hq, [.depsCall p v], rfl⟩
      refine ⟨hext, st.callLog, .depsCall p v, rfl, hb, ?_, ⟨hvc, hdc⟩, ?_⟩
      · intro ev hev
        exact eventCached_mono hext (hcached ev hev)
      · simp only [List.nodup_append, List.nodup_cons, List.nodup_nil,
          and_true, List.disjoint_singleton]
        exact ⟨hnodup, by simpa using hnotin⟩

theorem stateOutcomeInv_absorb {behaviors : ArbiterResolverBehaviors}
    {st st1 st' : ResolverState} {outcome : ResolutionOutcome}
    (hext : StateExtends st st1)
    (hinv : StateOutcomeInv behaviors st1 st' outcome) :
    StateOutcomeInv behaviors st st' outcome := by
  cases outcome with
  | ok g => exact ⟨stateExtends_trans hext hinv.1, hinv.2⟩
  | unsatisfiable q => exact ⟨stateExtends_trans hext hinv.1, hinv.2⟩
  | fatal msg => exact ⟨stateExtends_trans hext hinv.1, hinv.2⟩
  | outOfFuel => exact ⟨stateExtends_trans hext hinv.1, hinv.2⟩

/-- Core session invariant of the search (spec section 4.2, caching
discipline, and section 7): at every fuel level, both mutual functions carry a
healthy session state to a healthy final state, and a fatal outcome leaves the
error-abort shape (the erroring callback invocation is the final call and its
error is reported unmodified). -/
theorem resolver_preservation (behaviors : ArbiterResolverBehaviors) :
    ∀ fuel : Nat,
      (∀ st assigned queue st' outcome,
        GoodState behaviors st →
        resolveQueue behaviors fuel st assigned queue = (st', outcome) →
        StateOutcomeInv behaviors st st' outcome) ∧
      (∀ st assigned p req rest candidates st' outcome,
        GoodState behaviors st →
        tryCandidates behaviors fuel st assigned p req rest candidates =
          (st', outcome) →
        StateOutcomeInv behaviors st st' outcome) := by
  intro fuel
  induction fuel with
  | zero =>
    constructor
    · intro st assigned queue st' outcome hgood hrun
      rw [resolveQueue] at hrun
      injection hrun with h1 h2
      subst h1
      subst h2
      exact ⟨stateExtends_refl st, hgood⟩
    · intro st assigned p req rest candidates st' outcome hgood hrun
      rw [tryCandidates] at hrun
      injection hrun with h1 h2
      subst h1
      subst h2
      exact ⟨stateExtends_refl st, hgood⟩
  | succ fuel ih =>
    obtain ⟨ihq, iht⟩ := ih
    constructor
    · intro st assigned queue st' outcome hgood hrun
      cases queue with
      | nil =>
        rw [resolveQueue] at hrun
        injection hrun with h1 h2
        subst h1
        subst h2
        exact ⟨stateExtends_refl st, hgood⟩
      | cons edge rest =>
        obtain ⟨p, req⟩ := edge
        rw [resolveQueue] at hrun
        cases hl : lookupKey p assigned with
        | some entry =>
          obtain ⟨v, accumulated⟩ := entry
          simp only [hl] at hrun
          by_cases hs : ArbiterRequirementSatisfiedBy
              (.compound (req :: accumulated)) v = .unsuitable
          · rw [if_pos hs] at hrun
            injection hrun with h1 h2
            subst h1
            subst h2
            exact ⟨stateExtends_refl st, hgood⟩
          · rw [if_neg hs] at hrun
            exact ihq st (addRequirement p req assigned) rest st' outcome
              hgood hrun
        | none =>
          simp only [hl] at hrun
          cases hf : fetchVersions behaviors st p with
          | mk st1 res =>
            cases res with
            | error msg =>
              simp only [hf] at hrun
              injection hrun with h1 h2
              subst h1
              subst h2
              obtain ⟨hext, hfatal⟩ := fetchVersions_error hgood hf
              exact ⟨hext, hfatal⟩
            | ok versions =>
              simp only [hf] at hrun
              obtain ⟨hgood1, hext1, hb⟩ := fetchVersions_ok hgood hf
              exact stateOutcomeInv_absorb hext1
                (iht st1 assigned p req rest (orderCandidates req versions)
                  st' outcome hgood1 hrun)
    · intro st assigned p req rest candidates st' outcome hgood hrun
      cases candidates with
      | nil =>
        rw [tryCandidates] at hrun
        injection hrun with h1 h2
        subst h1
        subst h2
        exact ⟨stateExtends_refl st, hgood⟩
      | cons candidate moreCandidates =>
        rw [tryCandidates] at hrun
        cases hf : fetchDeps behaviors st p candidate with
        | mk st1 res =>
          cases res with
          | error msg =>
            simp only [hf] at hrun
            injection hrun with h1 h2
            subst h1
            subst h2
            obtain ⟨hext, hfatal⟩ := fetchDeps_error hgood hf
            exact ⟨hext, hfatal⟩
          | ok deps =>
            simp only [hf] at hrun
            obtain ⟨hgood1, hext1, hb⟩ := fetchDeps_ok hgood hf
            cases hrec : resolveQueue behaviors fuel st1
                ((p, candidate, [req]) :: assigned) (deps ++ rest) with
            | mk st2 outcome2 =>
              have hinv2 := ihq st1 ((p, candidate, [req]) :: assigned)
                (deps ++ rest) st2 outcome2 hgood1 hrec
              cases outcome2 with
              | ok g =>
                simp only [hrec] at hrun
                injection hrun with h1 h2
                subst h1
                subst h2
                exact stateOutcomeInv_absorb hext1 hinv2
              | unsatisfiable q =>
                simp only [hrec] at hrun
                obtain ⟨hext2, hgood2⟩ := hinv2
                exact stateOutcomeInv_absorb
                  (stateExtends_trans hext1 hext2)
                  (iht st2 assigned p req rest moreCandidates st' outcome
                    hgood2 hrun)
              | fatal msg =>
                simp only [hrec] at hrun
                injection hrun with h1 h2
                subst h1
                subst h2
                exact stateOutcomeInv_absorb hext1 hinv2
              | outOfFuel =>
                simp only [hrec] at hrun
                injection hrun with h1 h2
                subst h1
                subst h2
                exact stateOutcomeInv_absorb hext1 hinv2

theorem goodState_initial (behaviors : ArbiterResolverBehaviors) :
    GoodState behaviors initialResolverState := by
  refine ⟨List.nodup_nil, ?_, ?_, ?_⟩
  · intro ev hev
    simp [initialResolverState] at hev
  · intro p vs h
    simp [initialResolverState, lookupKey] at h
  · intro p v ds h
    simp [initialResolverState, lookupKey] at h

theorem stateOutcomeInv_nodup {behaviors : ArbiterResolverBehaviors}
    {st st' : ResolverState} {outcome : ResolutionOutcome}
    (h : StateOutcomeInv behaviors st st' outcome) : st'.callLog.Nodup := by
  cases outcome with
  | fatal msg =>
    obtain ⟨-, -, -, -, -, -, -, hnodup⟩ := h
    exact hnodup
  | ok g => exact h.2.1
  | unsatisfiable q => exact h.2.1
  | outOfFuel => exact h.2.1

theorem append_singleton_inj {α : Type} {l1 l2 : List α} {a b : α}
    (h : l1 ++ [a] = l2 ++ [b]) : a = b := by
  have h2 := congrArg List.reverse h
  simp only [List.reverse_append, List.reverse_singleton,
    List.singleton_append] at h2
  injection h2 with h3 h4

theorem eventErrors_unique {behaviors : ArbiterResolverBehaviors}
    {ev : CallEvent} {m1 m2 : String}
    (h1 : eventErrors behaviors ev m1) (h2 : eventErrors behaviors ev m2) :
    m1 = m2 := by
  cases ev with
  | versionsCall p =>
    simp only [eventErrors] at h1 h2
    rw [h1] at h2
    injection h2 with h3
  | depsCall p v =>
    simp only [eventErrors] at h1 h2
    rw [h1] at h2
    injection h2 with h3

theorem eventCached_not_error {behaviors : ArbiterResolverBehaviors}
    {st : ResolverState} {ev : CallEvent} {msg : String}
    (hcorrect : CachesCorrect behaviors st)
    (hcached : eventCached st ev)
    (herr : eventErrors behaviors ev msg) : False := by
  cases ev with
  | versionsCall p =>
    obtain ⟨vs, hvs⟩ := hcached
    have hok := hcorrect.1 p vs hvs
    simp only [eventErrors] at herr
    rw [hok] at herr
    simp at herr
  | depsCall p v =>
    obtain ⟨ds, hds⟩ := hcached
    have hok := hcorrect.2 p v ds hds
    simp only [eventErrors] at herr
    rw [hok] at herr
    simp at herr

/-- Concrete diamond scenario of spec section 8: projects A = 0 and B = 1
both depend on project C = 2; every project has the single version 1.0.0 and
C has no dependencies. -/
def diamondBehaviors : ArbiterResolverBehaviors where
  createDependencyList := fun p _ =>
    if p = 0 then .ok [(2, .any)]
    else if p = 1 then .ok [(2, .any)]
    else .ok []
  createAvailableVersionsList := fun _ => .ok [mkVersion 1 0 0]

/-- Root dependency list of the diamond scenario: A and B, any version. -/
def diamondRoot : ArbiterDependencyList := [(0, .any), (1, .any)]

/-- C8: within one resolver session the available-versions callback is never
invoked a second time for the same project and the dependency-list callback is
never invoked a second time for the same (project, version) pair — the call
log of any run from a fresh session has no duplicate invocation, however much
backtracking occurs; in the concrete diamond scenario (A and B both depend on
C) the dependency list of C's selected version is fetched exactly once. -/
theorem datasource_called_at_most_once
    (behaviors : ArbiterResolverBehaviors) (fuel : Nat)
    (root : ArbiterDependencyList) (st' : ResolverState)
    (outcome : ResolutionOutcome)
    (hrun : ArbiterResolverCreateResolvedDependencyGraph behaviors fuel root
      = (st', outcome)) :
    st'.callLog.Nodup
    ∧ (∀ p, st'.callLog.count (CallEvent.versionsCall p) ≤ 1)
    ∧ (∀ p v, st'.callLog.count (CallEvent.depsCall p v) ≤ 1)
    ∧ (ArbiterResolverCreateResolvedDependencyGraph diamondBehaviors 10
        diamondRoot).1.callLog.count
        (CallEvent.depsCall 2 (mkVersion 1 0 0)) = 1 := by
  have hinv := (resolver_preservation behaviors fuel).1 initialResolverState
    [] root st' outcome (goodState_initial behaviors) hrun
  have hnodup : st'.callLog.Nodup := stateOutcomeInv_nodup hinv
  refine ⟨hnodup, fun p => ?_, fun p v => ?_, ?_⟩
  · exact List.nodup_iff_count_le_one.mp hnodup _
  · exact List.nodup_iff_count_le_one.mp hnodup _
  · rfl

/-- Witness for C8 on the diamond scenario. -/
theorem datasource_called_at_most_once_witness :
    ArbiterResolverCreateResolvedDependencyGraph diamondBehaviors 10
        diamondRoot =
      ((ArbiterResolverCreateResolvedDependencyGraph diamondBehaviors 10
          diamondRoot).1,
        (ArbiterResolverCreateResolvedDependencyGraph diamondBehaviors 10
          diamondRoot).2)
    ∧ ((ArbiterResolverCreateResolvedDependencyGraph diamondBehaviors 10
          diamondRoot).1.callLog.Nodup
      ∧ (∀ p, (ArbiterResolverCreateResolvedDependencyGraph diamondBehaviors
          10 diamondRoot).1.callLog.count (CallEvent.versionsCall p) ≤ 1)
      ∧ (∀ p v, (ArbiterResolverCreateResolvedDependencyGraph
          diamondBehaviors 10 diamondRoot).1.callLog.count
          (CallEvent.depsCall p v) ≤ 1)
      ∧ (ArbiterResolverCreateResolvedDependencyGraph diamondBehaviors 10
          diamondRoot).1.callLog.count
          (CallEvent.depsCall 2 (mkVersion 1 0 0)) = 1) :=
  ⟨rfl, datasource_called_at_most_once diamondBehaviors 10 diamondRoot _ _
    rfl⟩

/-- Concrete erroring scenario: project 1's available-versions callback fails
with "network down"; everything else succeeds. -/
def erroringBehaviors : ArbiterResolverBehaviors where
  createDependencyList := fun _ _ => .ok []
  createAvailableVersionsList := fun p =>
    if p = 1 then .error "network down" else .ok [mkVersion 1 0 0]

/-- Root dependency list of the erroring scenario. -/
def erroringRoot : ArbiterDependencyList := [(0, .any), (1, .any)]

/-- C7: a run from a fresh session ends fatally with a message iff its call
log ends in an invocation whose callback returned exactly that error — so a
DataSource error is propagated unmodified in cause, the erroring invocation is
the last call made (the resolution terminates immediately; the error is
neither retried nor treated as an empty version list, and no soft
unsatisfiable outcome is produced instead), and no callback invocation is ever
repeated. -/
theorem datasource_error_aborts
    (behaviors : ArbiterResolverBehaviors) (fuel : Nat)
    (root : ArbiterDependencyList) (st' : ResolverState)
    (outcome : ResolutionOutcome)
    (hrun : ArbiterResolverCreateResolvedDependencyGraph behaviors fuel root
      = (st', outcome)) :
    (∀ msg, outcome = .fatal msg ↔
      ∃ earlier lastEvent, st'.callLog = earlier ++ [lastEvent] ∧
        eventErrors behaviors lastEvent msg)
    ∧ st'.callLog.Nodup := by
  have hinv := (resolver_preservation behaviors fuel).1 initialResolverState
    [] root st' outcome (goodState_initial behaviors) hrun
  refine ⟨fun msg => ⟨?_, ?_⟩, stateOutcomeInv_nodup hinv⟩
  · intro hfatal
    subst hfatal
    obtain ⟨-, earlier, lastEvent, heq, herr, -, -, -⟩ := hinv
    exact ⟨earlier, lastEvent, heq, herr⟩
  · rintro ⟨earlier, lastEvent, heq, herr⟩
    cases outcome with
    | fatal msg2 =>
      obtain ⟨-, earlier2, last2, heq2, herr2, -, -, -⟩ := hinv
      have h12 : earlier ++ [lastEvent] = earlier2 ++ [last2] := by
        rw [← heq, ← heq2]
      have hsame : lastEvent = last2 := append_singleton_inj h12
      rw [hsame] at herr
      have hmm : msg = msg2 := eventErrors_unique herr herr2
      rw [hmm]
    | ok g =>
      exfalso
      obtain ⟨-, hgood'⟩ := hinv
      refine eventCached_not_error hgood'.2.2
        (hgood'.2.1 lastEvent ?_) herr
      rw [heq]
      exact List.mem_append_right _ (by simp)
    | unsatisfiable q =>
      exfalso
      obtain ⟨-, hgood'⟩ := hinv
      refine eventCached_not_error hgood'.2.2
        (hgood'.2.1 lastEvent ?_) herr
      rw [heq]
      exact List.mem_append_right _ (by simp)
    | outOfFuel =>
      exfalso
      obtain ⟨-, hgood'⟩ := hinv
      refine eventCached_not_error hgood'.2.2
        (hgood'.2.1 lastEvent ?_) herr
      rw [heq]
      exact List.mem_append_right _ (by simp)

/-- Witness for C7 on the erroring scenario. -/
theorem datasource_error_aborts_witness :
    ArbiterResolverCreateResolvedDependencyGraph erroringBehaviors 20
        erroringRoot =
      ((ArbiterResolverCreateResolvedDependencyGraph erroringBehaviors 20
          erroringRoot).1,
        (ArbiterResolverCreateResolvedDependencyGraph erroringBehaviors 20
          erroringRoot).2)
    ∧ ((∀ msg,
        (ArbiterResolverCreateResolvedDependencyGraph erroringBehaviors 20
          erroringRoot).2 = .fatal msg ↔
        ∃ earlier lastEvent,
          (ArbiterResolverCreateResolvedDependencyGraph erroringBehaviors 20
            erroringRoot).1.callLog = earlier ++ [lastEvent] ∧
          eventErrors erroringBehaviors lastEvent msg)
      ∧ (ArbiterResolverCreateResolvedDependencyGraph erroringBehaviors 20
          erroringRoot).1.callLog.Nodup) :=
  ⟨rfl, datasource_error_aborts erroringBehaviors 20 erroringRoot _ _ rfl⟩

/-- C9: two runs over the same root dependency list, on fresh resolver
sessions, against data sources whose callbacks deterministically return the
same stable lists, produce identical results — in particular identical
resolved dependency graphs. -/
theorem resolver_deterministic
    (behaviors1 behaviors2 : ArbiterResolverBehaviors) (fuel : Nat)
    (root : ArbiterDependencyList)
    (hdeps : ∀ p v, behaviors1.createDependencyList p v =
      behaviors2.createDependencyList p v)
    (hversions : ∀ p, behaviors1.createAvailableVersionsList p =
      behaviors2.createAvailableVersionsList p) :
    ArbiterResolverCreateResolvedDependencyGraph behaviors1 fuel root =
      ArbiterResolverCreateResolvedDependencyGraph behaviors2 fuel root := by
  have hbe : behaviors1 = behaviors2 := by
    obtain ⟨d1, v1⟩ := behaviors1
    obtain ⟨d2, v2⟩ := behaviors2
    have hd : d1 = d2 := funext fun p => funext fun v => hdeps p v
    have hv : v1 = v2 := funext hversions
    rw [hd, hv]
  rw [hbe]

/-- Witness for C9 with the diamond scenario's data source on both runs. -/
theorem resolver_deterministic_witness :
    (∀ p v, diamondBehaviors.createDependencyList p v =
      diamondBehaviors.createDependencyList p v)
    ∧ (∀ p, diamondBehaviors.createAvailableVersionsList p =
      diamondBehaviors.createAvailableVersionsList p)
    ∧ ArbiterResolverCreateResolvedDependencyGraph diamondBehaviors 10
        diamondRoot =
      ArbiterResolverCreateResolvedDependencyGraph diamondBehaviors 10
        diamondRoot :=
  ⟨fun _ _ => rfl, fun _ => rfl,
    resolver_deterministic diamondBehaviors diamondBehaviors 10 diamondRoot
      (fun _ _ => rfl) (fun _ => rfl)⟩

theorem lookupKey_eq_none_not_mem {κ α : Type} [DecidableEq κ]
    {k : κ} {l : List (κ × α)} (h : lookupKey k l = none) (x : α) :
    (k, x) ∉ l := by
  induction l with
  | nil => simp
  | cons head tail ih =>
    obtain ⟨q, y⟩ := head
    rw [lookupKey] at h
    split at h
    · cases h
    · next hne =>
      intro hmem
      rcases List.mem_cons.mp hmem with heq | hmem2
      · injection heq with heq1 heq2
        exact hne heq1.symm
      · exact ih h hmem2

theorem lookupKey_some_mem {κ α : Type} [DecidableEq κ]
    {k : κ} {l : List (κ × α)} {x : α} (h : lookupKey k l = some x) :
    (k, x) ∈ l := by
  induction l with
  | nil => simp [lookupKey] at h
  | cons head tail ih =>
    obtain ⟨q, y⟩ := head
    rw [lookupKey] at h
    split at h
    · next heq =>
      injection h with h2
      subst heq
      subst h2
      exact List.mem_cons_self _ _
    · exact List.mem_cons_of_mem _ (ih h)

theorem lookupKey_of_mem_nodup {κ α : Type} [DecidableEq κ]
    {l : List (κ × α)} (hnodup : (l.map Prod.fst).Nodup)
    {k : κ} {x : α} (hmem : (k, x) ∈ l) : lookupKey k l = some x := by
  induction l with
  | nil => simp at hmem
  | cons head tail ih =>
    obtain ⟨q, y⟩ := head
    simp only [List.map_cons, List.nodup_cons] at hnodup
    rcases List.mem_cons.mp hmem with heq | hmem2
    · injection heq with heq1 heq2
      subst heq1
      subst heq2
      rw [lookupKey, if_pos rfl]
    · rw [lookupKey]
      split
      · next heq =>
        exfalso
        subst heq
        exact hnodup.1 (List.mem_map_of_mem Prod.fst hmem2)
      · exact ih hnodup.2 hmem2

/-- Keys (projects) of a resolved dependency graph, in entry order. -/
def graphKeys (g : ArbiterResolvedDependencyGraph) :
    List ArbiterProjectIdentifier :=
  g.map Prod.fst

theorem graphKeys_addRequirement (p : ArbiterProjectIdentifier)
    (req : ArbiterRequirement) (g : ArbiterResolvedDependencyGraph) :
    graphKeys (addRequirement p req g) = graphKeys g := by
  induction g with
  | nil => rfl
  | cons entry rest ih =>
    obtain ⟨q, v, acc⟩ := entry
    rw [addRequirement]
    split
    · rfl
    · simp only [graphKeys, List.map_cons] at ih ⊢
      rw [ih]

theorem mem_addRequirement_elim {p : ArbiterProjectIdentifier}
    {req : ArbiterRequirement} {g : ArbiterResolvedDependencyGraph}
    {q : ArbiterProjectIdentifier} {v : ArbiterSemanticVersion}
    {acc : List ArbiterRequirement}
    (h : (q, v, acc) ∈ addRequirement p req g) :
    (q, v, acc) ∈ g ∨
      (q = p ∧ ∃ old, acc = req :: old ∧ (q, v, old) ∈ g) := by
  induction g with
  | nil => simp [addRequirement] at h
  | cons entry rest ih =>
    obtain ⟨q2, v2, acc2⟩ := entry
    rw [addRequirement] at h
    split at h
    · next heq =>
      rcases List.mem_cons.mp h with hh | hh
      · injection hh with hh1 hh2
        injection hh2 with hh2 hh3
        subst hh1
        subst hh2
        exact Or.inr ⟨heq, acc2, hh3, List.mem_cons_self _ _⟩
      · exact Or.inl (List.mem_cons_of_mem _ hh)
    · rcases List.mem_cons.mp h with hh | hh
      · exact Or.inl (hh ▸ List.mem_cons_self _ _)
      · rcases ih hh with hh2 | ⟨hq, old, hacc, hold⟩
        · exact Or.inl (List.mem_cons_of_mem _ hh2)
        · exact Or.inr ⟨hq, old, hacc, List.mem_cons_of_mem _ hold⟩

theorem mem_addRequirement_extends (p : ArbiterProjectIdentifier)
    (req : ArbiterRequirement) {g : ArbiterResolvedDependencyGraph}
    {q : ArbiterProjectIdentifier} {v : ArbiterSemanticVersion}
    {acc : List ArbiterRequirement} (h : (q, v, acc) ∈ g) :
    ∃ acc2, (q, v, acc2) ∈ addRequirement p req g ∧ acc ⊆ acc2 := by
  induction g with
  | nil => simp at h
  | cons entry rest ih =>
    obtain ⟨q2, v2, acc2⟩ := entry
    rw [addRequirement]
    rcases List.mem_cons.mp h with hh | hh
    · injection hh with hh1 hh2
      injection hh2 with hh2 hh3
      subst hh1
      subst hh2
      subst hh3
      split
      · exact ⟨req :: acc, List.mem_cons_self _ _,
          List.subset_cons_self _ _⟩
      · exact ⟨acc, List.mem_cons_self _ _, List.Subset.refl acc⟩
    · obtain ⟨acc3, hmem3, hsub3⟩ := ih hh
      split
      · exact ⟨acc, List.mem_cons_of_mem _ hh, List.Subset.refl acc⟩
      · exact ⟨acc3, List.mem_cons_of_mem _ hmem3, hsub3⟩

theorem mem_addRequirement_head {p : ArbiterProjectIdentifier}
    {req : ArbiterRequirement} {g : ArbiterResolvedDependencyGraph}
    {v : ArbiterSemanticVersion} {acc : List ArbiterRequirement}
    (h : lookupKey p g = some (v, acc)) :
    (p, v, req :: acc) ∈ addRequirement p req g := by
  induction g with
  | nil => simp [lookupKey] at h
  | cons entry rest ih =>
    obtain ⟨q2, v2, acc2⟩ := entry
    rw [lookupKey] at h
    rw [addRequirement]
    split at h
    · next heq =>
      injection h with h2
      injection h2 with h2 h3
      subst heq
      subst h2
      subst h3
      rw [if_pos rfl]
      exact List.mem_cons_self _ _
    · next hne =>
      rw [if_neg hne]
      exact List.mem_cons_of_mem _ (ih h)

theorem mem_insertDescending {v x : ArbiterSemanticVersion}
    {l : List ArbiterSemanticVersion} (h : x ∈ insertDescending v l) :
    x = v ∨ x ∈ l := by
  induction l with
  | nil =>
    rw [insertDescending] at h
    rcases List.mem_singleton.mp h with rfl
    exact Or.inl rfl
  | cons w rest ih =>
    rw [insertDescending] at h
    split at h
    · rcases List.mem_cons.mp h with rfl | h2
      · exact Or.inl rfl
      · exact Or.inr h2
    · rcases List.mem_cons.mp h with rfl | h2
      · exact Or.inr (List.mem_cons_self _ _)
      · rcases ih h2 with h3 | h3
        · exact Or.inl h3
        · exact Or.inr (List.mem_cons_of_mem _ h3)

theorem mem_sortDescending {x : ArbiterSemanticVersion}
    {l : List ArbiterSemanticVersion} (h : x ∈ sortDescending l) : x ∈ l := by
  induction l with
  | nil => simp [sortDescending] at h
  | cons v rest ih =>
    rw [sortDescending] at h
    rcases mem_insertDescending h with rfl | h2
    · exact List.mem_cons_self _ _
    · exact List.mem_cons_of_mem _ (ih h2)

theorem orderCandidates_not_unsuitable {req : ArbiterRequirement}
    {versions : List ArbiterSemanticVersion} {c : ArbiterSemanticVersion}
    (h : c ∈ orderCandidates req versions) :
    ArbiterRequirementSatisfiedBy req c ≠ .unsuitable := by
  rw [orderCandidates] at h
  rcases List.mem_append.mp h with h2 | h2
  · have := List.of_mem_filter h2
    have hbest := of_decide_eq_true this
    rw [hbest]
    intro hcontra
    cases hcontra
  · have := List.of_mem_filter (mem_sortDescending h2)
    have hsuit := of_decide_eq_true this
    rw [hsuit]
    intro hcontra
    cases hcontra

/-- Every selected entry's version satisfies the Compound of its accumulated
requirement edges at no worse than Suitable (spec section 3, invariants). -/
def GraphSatisfies (g : ArbiterResolvedDependencyGraph) : Prop :=
  ∀ p v acc, (p, v, acc) ∈ g →
    ArbiterRequirementSatisfiedBy (.compound acc) v ≠ .unsuitable

/-- Every dependency edge of every selected entry is retained in the target
project's entry (spec section 3: the graph's edge set, and the invariant that
each dependent's requirement is honoured by the target's selection). -/
def GraphClosed (behaviors : ArbiterResolverBehaviors)
    (g : ArbiterResolvedDependencyGraph) : Prop :=
  ∀ d vd accd, (d, vd, accd) ∈ g →
    ∀ deps, behaviors.createDependencyList d vd = .ok deps →
    ∀ p req, (p, req) ∈ deps →
    ∃ vp accp, (p, vp, accp) ∈ g ∧ req ∈ accp

/-- Mid-search invariant (spec section 4.2 step 1): every dependency edge of
every entry of the partial assignment is either already retained in its
target's entry or still outstanding in the queue. -/
def DepsPending (behaviors : ArbiterResolverBehaviors)
    (assigned : ArbiterResolvedDependencyGraph)
    (queue : List (ArbiterProjectIdentifier × ArbiterRequirement)) : Prop :=
  ∀ d vd accd, (d, vd, accd) ∈ assigned →
    ∀ deps, behaviors.createDependencyList d vd = .ok deps →
    ∀ p req, (p, req) ∈ deps →
    (∃ vp accp, (p, vp, accp) ∈ assigned ∧ req ∈ accp) ∨ (p, req) ∈ queue

/-- What a successful search step guarantees: the final graph has
duplicate-free keys, satisfies all accumulated requirements, retains every
dependency edge of every selected entry, extends the entry assignment, and
covers every queued edge. -/
def SoundOutcome (behaviors : ArbiterResolverBehaviors)
    (assigned : ArbiterResolvedDependencyGraph)
    (queue : List (ArbiterProjectIdentifier × ArbiterRequirement))
    (g : ArbiterResolvedDependencyGraph) : Prop :=
  (graphKeys g).Nodup ∧ GraphSatisfies g ∧ GraphClosed behaviors g ∧
  (∀ p v acc, (p, v, acc) ∈ assigned →
    ∃ acc2, (p, v, acc2) ∈ g ∧ acc ⊆ acc2) ∧
  (∀ p req, (p, req) ∈ queue → ∃ v acc, (p, v, acc) ∈ g ∧ req ∈ acc)

theorem compound_singleton_not_unsuitable {req : ArbiterRequirement}
    {c : ArbiterSemanticVersion}
    (hreq : ArbiterRequirementSatisfiedBy req c ≠ .unsuitable) :
    ArbiterRequirementSatisfiedBy (.compound [req]) c ≠ .unsuitable := by
  rw [ArbiterRequirementSatisfiedBy]
  refine compoundSatisfiedBy_ne_unsuitable [req] c ?_
  intro r hr
  rcases List.mem_singleton.mp hr with rfl
  exact hreq

/-- Soundness of the modelled search (spec section 3, invariants, and section
4.2 step 7): at every fuel level, a successful step from a healthy state whose
partial assignment has duplicate-free keys, satisfies its accumulated
requirements, and has all remaining dependency edges queued, produces a graph
with duplicate-free keys that satisfies all accumulated requirements, retains
every dependency edge of every selected entry, extends the partial assignment
and covers every queued edge. -/
theorem resolver_soundness (behaviors : ArbiterResolverBehaviors) :
    ∀ fuel : Nat,
      (∀ st assigned queue st' g,
        GoodState behaviors st →
        (graphKeys assigned).Nodup →
        GraphSatisfies assigned →
        DepsPending behaviors assigned queue →
        resolveQueue behaviors fuel st assigned queue = (st', .ok g) →
        SoundOutcome behaviors assigned queue g) ∧
      (∀ st assigned p req rest candidates st' g,
        GoodState behaviors st →
        (graphKeys assigned).Nodup →
        GraphSatisfies assigned →
        lookupKey p assigned = none →
        DepsPending behaviors assigned ((p, req) :: rest) →
        (∀ c ∈ candidates,
          ArbiterRequirementSatisfiedBy req c ≠ .unsuitable) →
        tryCandidates behaviors fuel st assigned p req rest candidates =
          (st', .ok g) →
        SoundOutcome behaviors assigned ((p, req) :: rest) g) := by
  intro fuel
  induction fuel with
  | zero =>
    constructor
    · intro st assigned queue st' g hgood hnodup hsat hdp hrun
      rw [resolveQueue] at hrun
      injection hrun with h1 h2
      cases h2
    · intro st assigned p req rest candidates st' g hgood hnodup hsat hlook
        hdp hcands hrun
      rw [tryCandidates] at hrun
      injection hrun with h1 h2
      cases h2
  | succ fuel ih =>
    obtain ⟨ihq, iht⟩ := ih
    constructor
    · intro st assigned queue st' g hgood hnodup hsat hdp hrun
      cases queue with
      | nil =>
        rw [resolveQueue] at hrun
        injection hrun with h1 h2
        injection h2 with h2
        subst h2
        refine ⟨hnodup, hsat, ?_, ?_, ?_⟩
        · intro d vd accd hd deps hdeps p req hpr
          rcases hdp d vd accd hd deps hdeps p req hpr with h | h
          · exact h
          · simp at h
        · intro p v acc hmem
          exact ⟨acc, hmem, List.Subset.refl acc⟩
        · intro p req hmem
          simp at hmem
      | cons edge rest =>
        obtain ⟨p, req⟩ := edge
        rw [resolveQueue] at hrun
        cases hl : lookupKey p assigned with
        | some entry =>
          obtain ⟨v, acc⟩ := entry
          simp only [hl] at hrun
          by_cases hs : ArbiterRequirementSatisfiedBy
              (.compound (req :: acc)) v = .unsuitable
          · rw [if_pos hs] at hrun
            injection hrun with h1 h2
            cases h2
          · rw [if_neg hs] at hrun
            have hnodupMap : (assigned.map Prod.fst).Nodup := hnodup
            have hnodup2 :
                (graphKeys (addRequirement p req assigned)).Nodup := by
              rw [graphKeys_addRequirement]
              exact hnodup
            have hsat2 : GraphSatisfies (addRequirement p req assigned) := by
              intro q w acc2 hmem2
              rcases mem_addRequirement_elim hmem2 with hmem3 |
                ⟨rfl, old, rfl, hold⟩
              · exact hsat q w acc2 hmem3
              · have h2 := lookupKey_of_mem_nodup hnodupMap hold
                rw [hl] at h2
                injection h2 with h2
                injection h2 with he1 he2
                subst he1
                subst he2
                exact hs
            have hdp2 : DepsPending behaviors
                (addRequirement p req assigned) rest := by
              intro d vd accd hd deps hdeps q r hqr
              have horig : ∃ acc0, (d, vd, acc0) ∈ assigned := by
                rcases mem_addRequirement_elim hd with h3 |
                  ⟨-, old, -, hold⟩
                · exact ⟨_, h3⟩
                · exact ⟨old, hold⟩
              obtain ⟨acc0, hacc0⟩ := horig
              rcases hdp d vd acc0 hacc0 deps hdeps q r hqr with
                ⟨vp, accp, hvp, hrp⟩ | hq
              · obtain ⟨accp2, hvp2, hsub⟩ :=
                  mem_addRequirement_extends p req hvp
                exact Or.inl ⟨vp, accp2, hvp2, hsub hrp⟩
              · rcases List.mem_cons.mp hq with heq | hq2
                · injection heq with he1 he2
                  subst he1
                  subst he2
                  exact Or.inl ⟨v, r :: acc, mem_addRequirement_head hl,
                    List.mem_cons_self _ _⟩
                · exact Or.inr hq2
            obtain ⟨hgn, hgs, hgc, hext, hcov⟩ :=
              ihq st (addRequirement p req assigned) rest st' g hgood
                hnodup2 hsat2 hdp2 hrun
            refine ⟨hgn, hgs, hgc, ?_, ?_⟩
            · intro q w acc2 hmem2
              obtain ⟨acc3, hmem3, hsub3⟩ :=
                mem_addRequirement_extends p req hmem2
              obtain ⟨acc4, hmem4, hsub4⟩ := hext q w acc3 hmem3
              exact ⟨acc4, hmem4, fun x hx => hsub4 (hsub3 hx)⟩
            · intro q r hqr
              rcases List.mem_cons.mp hqr with heq | hq2
              · injection heq with he1 he2
                subst he1
                subst he2
                obtain ⟨acc4, hmem4, hsub4⟩ :=
                  hext q v (r :: acc) (mem_addRequirement_head hl)
                exact ⟨v, acc4, hmem4, hsub4 (List.mem_cons_self _ _)⟩
              · exact hcov q r hq2
        | none =>
          simp only [hl] at hrun
          cases hf : fetchVersions behaviors st p with
          | mk st1 res =>
            cases res with
            | error msg =>
              simp only [hf] at hrun
              injection hrun with h1 h2
              cases h2
            | ok versions =>
              simp only [hf] at hrun
              obtain ⟨hgood1, -, -⟩ := fetchVersions_ok hgood hf
              exact iht st1 assigned p req rest
                (orderCandidates req versions) st' g hgood1 hnodup hsat hl
                hdp (fun c hc => orderCandidates_not_unsuitable hc) hrun
    · intro st assigned p req rest candidates st' g hgood hnodup hsat hlook
        hdp hcands hrun
      cases candidates with
      | nil =>
        rw [tryCandidates] at hrun
        injection hrun with h1 h2
        cases h2
      | cons candidate moreCandidates =>
        rw [tryCandidates] at hrun
        cases hf : fetchDeps behaviors st p candidate with
        | mk st1 res =>
          cases res with
          | error msg =>
            simp only [hf] at hrun
            injection hrun with h1 h2
            cases h2
          | ok deps =>
            simp only [hf] at hrun
            obtain ⟨hgood1, -, hb⟩ := fetchDeps_ok hgood hf
            cases hrec : resolveQueue behaviors fuel st1
                ((p, candidate, [req]) :: assigned) (deps ++ rest) with
            | mk st2 outcome2 =>
              cases outcome2 with
              | ok g2 =>
                simp only [hrec] at hrun
                injection hrun with h1 h2
                injection h2 with h2
                subst h2
                subst h1
                have hnotmem : p ∉ graphKeys assigned := by
                  intro hmem
                  obtain ⟨entry, hentry, hfst⟩ := List.mem_map.mp hmem
                  obtain ⟨q, v, acc⟩ := entry
                  have hq : q = p := hfst
                  subst hq
                  exact lookupKey_eq_none_not_mem hlook (v, acc) hentry
                have hnodup2 :
                    (graphKeys ((p, candidate, [req]) :: assigned)).Nodup := by
                  rw [graphKeys, List.map_cons]
                  exact List.nodup_cons.mpr ⟨hnotmem, hnodup⟩
                have hsat2 :
                    GraphSatisfies ((p, candidate, [req]) :: assigned) := by
                  intro q w acc2 hmem2
                  rcases List.mem_cons.mp hmem2 with heq | hmem3
                  · injection heq with he1 he2
                    injection he2 with he2 he3
                    subst he1
                    subst he2
                    subst he3
                    exact compound_singleton_not_unsuitable
                      (hcands w (List.mem_cons_self _ _))
                  · exact hsat q w acc2 hmem3
                have hdp2 : DepsPending behaviors
                    ((p, candidate, [req]) :: assigned) (deps ++ rest) := by
                  intro d vd accd hd deps2 hdeps2 q r hqr
                  rcases List.mem_cons.mp hd with heq | hd2
                  · injection heq with he1 he2
                    injection he2 with he2 he3
                    subst he1
                    subst he2
                    subst he3
                    rw [hb] at hdeps2
                    injection hdeps2 with hdeps2
                    subst hdeps2
                    exact Or.inr (List.mem_append_left _ hqr)
                  · rcases hdp d vd accd hd2 deps2 hdeps2 q r hqr with
                      ⟨vp, accp, hvp, hrp⟩ | hq
                    · exact Or.inl ⟨vp, accp,
                        List.mem_cons_of_mem _ hvp, hrp⟩
                    · rcases List.mem_cons.mp hq with heq2 | hq2
                      · injection heq2 with he1 he2
                        subst he1
                        subst he2
                        exact Or.inl ⟨candidate, [r],
                          List.mem_cons_self _ _, List.mem_singleton_self _⟩
                      · exact Or.inr (List.mem_append_right _ hq2)
                obtain ⟨hgn, hgs, hgc, hext, hcov⟩ :=
                  ihq st1 ((p, candidate, [req]) :: assigned) (deps ++ rest)
                    st2 g2 hgood1 hnodup2 hsat2 hdp2 hrec
                refine ⟨hgn, hgs, hgc, ?_, ?_⟩
                · intro q w acc2 hmem2
                  exact hext q w acc2 (List.mem_cons_of_mem _ hmem2)
                · intro q r hqr
                  rcases List.mem_cons.mp hqr with heq | hq2
                  · injection heq with he1 he2
                    subst he1
                    subst he2
                    obtain ⟨acc4, hmem4, hsub4⟩ :=
                      hext q candidate [r] (List.mem_cons_self _ _)
                    exact ⟨candidate, acc4, hmem4,
                      hsub4 (List.mem_singleton_self _)⟩
                  · exact hcov q r (List.mem_append_right _ hq2)
              | unsatisfiable q2 =>
                simp only [hrec] at hrun
                have hinv2 := (resolver_preservation behaviors fuel).1 st1
                  ((p, candidate, [req]) :: assigned) (deps ++ rest) st2
                  (.unsatisfiable q2) hgood1 hrec
                exact iht st2 assigned p req rest moreCandidates st' g
                  hinv2.2 hnodup hsat hlook hdp
                  (fun c hc => hcands c (List.mem_cons_of_mem _ hc)) hrun
              | fatal msg =>
                simp only [hrec] at hrun
                injection hrun with h1 h2
                cases h2
              | outOfFuel =>
                simp only [hrec] at hrun
                injection hrun with h1 h2
                cases h2

/-- Projects reachable from the root dependency list through the dependency
lists of the versions selected in the graph (spec section 3: "reachable from
the root DependencyList"). -/
inductive ReachableFrom (behaviors : ArbiterResolverBehaviors)
    (root : ArbiterDependencyList) (g : ArbiterResolvedDependencyGraph) :
    ArbiterProjectIdentifier → Prop where
  | ofRoot (p : ArbiterProjectIdentifier) (req : ArbiterRequirement)
      (hmem : (p, req) ∈ root) : ReachableFrom behaviors root g p
  | ofDependent (d p : ArbiterProjectIdentifier)
      (vd : ArbiterSemanticVersion) (accd : List ArbiterRequirement)
      (deps : ArbiterDependencyList) (req : ArbiterRequirement)
      (hreach : ReachableFrom behaviors root g d)
      (hsel : (d, vd, accd) ∈ g)
      (hdeps : behaviors.createDependencyList d vd = .ok deps)
      (hmem : (p, req) ∈ deps) : ReachableFrom behaviors root g p

/-- C1: on every successful resolution, the resolved dependency graph maps
every project reachable from the root dependency list to a selected version,
its keys are duplicate-free (each reachable project appears exactly once with
exactly one version), and every entry's selected version satisfies the
Compound of its retained requirement edges at no worse than Suitable, where
those retained edges cover every requirement contributed by the root and by
every selected dependent toward the project. -/
theorem resolved_graph_correct
    (behaviors : ArbiterResolverBehaviors) (fuel : Nat)
    (root : ArbiterDependencyList) (st' : ResolverState)
    (g : ArbiterResolvedDependencyGraph)
    (hrun : ArbiterResolverCreateResolvedDependencyGraph behaviors fuel root
      = (st', .ok g)) :
    (graphKeys g).Nodup
    ∧ (∀ p, ReachableFrom behaviors root g p → ∃ v acc, (p, v, acc) ∈ g)
    ∧ (∀ p v acc, (p, v, acc) ∈ g →
        1 ≤ suitabilityRank
          (ArbiterRequirementSatisfiedBy (.compound acc) v))
    ∧ GraphClosed behaviors g
    ∧ (∀ p req, (p, req) ∈ root →
        ∃ v acc, (p, v, acc) ∈ g ∧ req ∈ acc) := by
  have hsound := (resolver_soundness behaviors fuel).1 initialResolverState
    [] root st' g (goodState_initial behaviors) (by simp [graphKeys])
    (fun p v acc hmem => absurd hmem (by simp))
    (fun d vd accd hd => absurd hd (by simp)) hrun
  obtain ⟨hgn, hgs, hgc, -, hcov⟩ := hsound
  refine ⟨hgn, ?_, ?_, hgc, ?_⟩
  · intro p hreach
    cases hreach with
    | ofRoot p req hmem =>
      obtain ⟨v, acc, hmem2, -⟩ := hcov p req hmem
      exact ⟨v, acc, hmem2⟩
    | ofDependent d p vd accd deps req hreach2 hsel hdeps hmem =>
      obtain ⟨vp, accp, hmem2, -⟩ := hgc d vd accd hsel deps hdeps p req hmem
      exact ⟨vp, accp, hmem2⟩
  · intro p v acc hmem
    have hne := hgs p v acc hmem
    rcases h : ArbiterRequirementSatisfiedBy (.compound acc) v with - | - | -
    · exact absurd h hne
    · decide
    · decide
  · intro p req hmem
    exact hcov p req hmem

/-- Trivial single-project scenario: the root needs project 0 at any version;
project 0 has the single version 1.0.0 with no dependencies. -/
def singleBehaviors : ArbiterResolverBehaviors where
  createDependencyList := fun _ _ => .ok []
  createAvailableVersionsList := fun _ => .ok [mkVersion 1 0 0]

/-- Root dependency list of the single-project scenario. -/
def singleRoot : ArbiterDependencyList := [(0, .any)]

/-- Witness for C1 on the single-project scenario. -/
theorem resolved_graph_correct_witness :
    ArbiterResolverCreateResolvedDependencyGraph singleBehaviors 5 singleRoot
      = ((ArbiterResolverCreateResolvedDependencyGraph singleBehaviors 5
          singleRoot).1,
        .ok [(0, mkVersion 1 0 0, [ArbiterRequirement.any])])
    ∧ ((graphKeys [(0, mkVersion 1 0 0, [ArbiterRequirement.any])]).Nodup
      ∧ (∀ p, ReachableFrom singleBehaviors singleRoot
          [(0, mkVersion 1 0 0, [ArbiterRequirement.any])] p →
          ∃ v acc, (p, v, acc) ∈
            ([(0, mkVersion 1 0 0, [ArbiterRequirement.any])] :
              ArbiterResolvedDependencyGraph))
      ∧ (∀ p v acc, (p, v, acc) ∈
          ([(0, mkVersion 1 0 0, [ArbiterRequirement.any])] :
            ArbiterResolvedDependencyGraph) →
          1 ≤ suitabilityRank
            (ArbiterRequirementSatisfiedBy (.compound acc) v))
      ∧ GraphClosed singleBehaviors
          [(0, mkVersion 1 0 0, [ArbiterRequirement.any])]
      ∧ (∀ p req, (p, req) ∈ singleRoot →
          ∃ v acc, (p, v, acc) ∈
            ([(0, mkVersion 1 0 0, [ArbiterRequirement.any])] :
              ArbiterResolvedDependencyGraph) ∧ req ∈ acc)) :=
  ⟨rfl, resolved_graph_correct singleBehaviors 5 singleRoot _ _ rfl⟩
